import Mathlib

/-!
Verification of the search/filter core of `app.py` (Ricerca Ricambi).

Strings are modelled as `List Char`. Python text primitives (`str.strip`,
`str.lower`, `str.split`, `unicodedata.normalize("NFKD", ·)`,
`unicodedata.combining`) are modelled character-wise; the Unicode tables
(`pyLowerChar`, `nfkdChar`, `combining`, `pyIsSpace`) are restricted to the
characters exercised here and are faithful to the Unicode character database
on those characters (in particular U+00A8 DIAERESIS, whose NFKD decomposition
is U+0020 U+0308, and the Latin accented letters, e.g. U+00E8 è → e U+0300).
`rapidfuzz.fuzz.ratio` is the normalized indel similarity
100·(1 − dist/(m+n)) = 200·lcs/(m+n), and `fuzz.partial_ratio` is its maximum
over the sliding windows of the longer string (with overhang), as an exact
rational; rapidfuzz returns the same value as a float.
-/

namespace Prova

abbrev Str := List Char

/-- The whitespace characters recognized by Python `str.strip()` / `str.split()`
(restricted to the common ones: space, tab, newline, CR, VT, FF, NBSP). -/
def pyIsSpace (c : Char) : Bool :=
  c = ' ' || c = '\t' || c = '\n' || c = '\r' ||
  c = '\u000b' || c = '\u000c' || c = '\u00a0'

/-- Python `str.lower()`, character-wise (ASCII plus the accented capitals used
by the data; identity elsewhere). -/
def pyLowerChar (c : Char) : Char :=
  if 'A' ≤ c ∧ c ≤ 'Z' then Char.ofNat (c.toNat + 32)
  else if c = 'È' then 'è'
  else if c = 'É' then 'é'
  else if c = 'À' then 'à'
  else if c = 'Ì' then 'ì'
  else if c = 'Ò' then 'ò'
  else if c = 'Ù' then 'ù'
  else c

/-- `unicodedata.combining(c) != 0` for the combining marks arising here
(U+0300 grave, U+0301 acute, U+0308 diaeresis). -/
def combining (c : Char) : Bool :=
  c = '\u0300' || c = '\u0301' || c = '\u0308'

/-- Character-wise NFKD decomposition (`unicodedata.normalize("NFKD", ·)`),
restricted to the characters exercised here; identity elsewhere.
U+00A8 DIAERESIS has the compatibility decomposition U+0020 U+0308. -/
def nfkdChar (c : Char) : List Char :=
  if c = 'à' then ['a', '\u0300']
  else if c = 'è' then ['e', '\u0300']
  else if c = 'é' then ['e', '\u0301']
  else if c = 'ì' then ['i', '\u0300']
  else if c = 'ò' then ['o', '\u0300']
  else if c = 'ù' then ['u', '\u0300']
  else if c = '¨' then [' ', '\u0308']
  else [c]

/-- Python `str.strip()`. -/
def pyStrip (s : Str) : Str :=
  ((s.dropWhile pyIsSpace).reverse.dropWhile pyIsSpace).reverse

/-- Python `str.lower()` on a string. -/
def pyLower (s : Str) : Str := s.map pyLowerChar

/-- `unicodedata.normalize("NFKD", s)` on a string. -/
def nfkdStr (s : Str) : Str := s.flatMap nfkdChar

/-- Drop the combining marks: the comprehension
`"".join(c for c in x if not unicodedata.combining(c))`. -/
def dropCombining (s : Str) : Str := s.filter (fun c => !combining c)

/-- `_normalize_text` from app.py (lines 19-26): an absent value (`pd.isna`)
gives the empty string; otherwise strip, lower, NFKD-decompose and drop the
combining marks. -/
def normalize_text (x : Option Str) : Str :=
  match x with
  | none => []
  | some s => dropCombining (nfkdStr (pyLower (pyStrip s)))

/-- pandas `Series.astype(str)` on one cell: a missing value (NaN) is rendered
as the three-letter string "nan". -/
def astypeStr (x : Option Str) : Str :=
  match x with
  | none => ("nan" : String).data
  | some s => s

/-- One cached normalized column cell, app.py line 135:
`df[col].astype(str).map(_normalize_text)`. -/
def normColumn (x : Option Str) : Str := normalize_text (some (astypeStr x))

/-- One inventory row: the four raw cells (a `none` is a missing/NaN cell). -/
structure Record where
  codice : Option Str
  descrizione : Option Str
  ubicazione : Option Str
  categoria : Option Str
deriving DecidableEq

/-- Cached `Codice_norm` cell of a row. -/
def codiceNorm (r : Record) : Str := normColumn r.codice

/-- Cached `Descrizione_norm` cell of a row. -/
def descrizioneNorm (r : Record) : Str := normColumn r.descrizione

/-- Cached `Ubicazione_norm` cell of a row. -/
def ubicazioneNorm (r : Record) : Str := normColumn r.ubicazione

/-- Cached `Categoria_norm` cell of a row. -/
def categoriaNorm (r : Record) : Str := normColumn r.categoria

/-- Helper for `pySplit`: accumulates the current word (reversed). -/
def pySplitAux : Str → Str → List Str
  | [], acc => if acc.isEmpty then [] else [acc.reverse]
  | c :: t, acc =>
    if pyIsSpace c then
      if acc.isEmpty then pySplitAux t [] else acc.reverse :: pySplitAux t []
    else pySplitAux t (c :: acc)

/-- Python `str.split()` with no argument: split on whitespace runs,
no empty tokens. -/
def pySplit (s : Str) : List Str := pySplitAux s []

/-- Python `needle in haystack` (literal substring test; `re.escape` makes the
regex uses in app.py literal as well). -/
def containsSub (n : Str) : Str → Bool
  | [] => n.isEmpty
  | c :: t => decide (n <+: (c :: t)) || containsSub n t

/-- The token list of `filter_contains_all_words`, app.py line 44:
`[_normalize_text(w) for w in query.split() if w.strip()]`. -/
def queryWords (query : Str) : List Str :=
  ((pySplit query).filter (fun w => !(pyStrip w).isEmpty)).map
    (fun w => normalize_text (some w))

/-- `filter_contains_all_words` from app.py (lines 40-57), applied as in the
app to the `Descrizione` column, whose cached normalized column exists
(lines 133-135).  All-words mode demands every token as a substring of the
normalized description, any-word mode at least one. -/
def filter_contains_all_words (rows : List Record) (query : Str)
    (require_all : Bool) : List Record :=
  if query.isEmpty then rows
  else if (queryWords query).isEmpty then rows
  else if require_all then
    rows.filter (fun r =>
      (queryWords query).all (fun w => containsSub w (descrizioneNorm r)))
  else
    rows.filter (fun r =>
      (queryWords query).any (fun w => containsSub w (descrizioneNorm r)))

/-- One DP row update for the longest common subsequence. -/
def lcsGo (c : Char) : Str → List Nat → Nat → List Nat
  | bj :: bs, pj :: pjs, left =>
    let up := pjs.headD 0
    let v := if c = bj then pj + 1 else max left up
    v :: lcsGo c bs pjs v
  | _, _, _ => []

/-- Length of a longest common subsequence (dynamic programming).  The indel
(insertion/deletion) edit distance of rapidfuzz satisfies
`dist a b = a.length + b.length - 2 * lcs a b`. -/
def lcs (a b : Str) : Nat :=
  (a.foldl (fun row c => 0 :: lcsGo c b row 0)
    (List.replicate (b.length + 1) 0)).getLastD 0

/-- `rapidfuzz.fuzz.ratio`: the normalized indel similarity
`100 * (1 - dist/(m+n)) = 200 * lcs/(m+n)` as an exact rational
(100 when both strings are empty). -/
def fuzzScore (a b : Str) : ℚ :=
  if a.length + b.length = 0 then 100
  else (200 * (lcs a b : ℚ)) / ((a.length : ℚ) + (b.length : ℚ))

/-- The windows of the haystack `b` scored by `fuzz.partial_ratio` for a
needle of length `la ≤ b.length`: every alignment of a length-`la` frame slid
across `b`, with overhang at both ends (prefixes of length < la, all full
windows, suffixes of length ≤ la). -/
def prWindows (la : Nat) (b : Str) : List Str :=
  ((List.range (la - 1)).map (fun i => b.take (i + 1)))
    ++ ((List.range (b.length - la)).map (fun i => (b.drop i).take la))
    ++ ((List.range la).map (fun j => b.drop (b.length - la + j)))

/-- Best window score for a needle `a` no longer than the haystack `b`. -/
def bwsAux (a b : Str) : ℚ :=
  if a.length = 0 then (if b.length = 0 then 100 else 0)
  else ((prWindows a.length b).map (fun w => fuzzScore a w)).foldl max 0

/-- `rapidfuzz.fuzz.partial_ratio`: the best `fuzz.ratio` between the shorter
string and a window of the longer one (0 when exactly one side is empty,
100 when both are). -/
def bestWindowScore (s1 s2 : Str) : ℚ :=
  if s1.length ≤ s2.length then bwsAux s1 s2 else bwsAux s2 s1

/-- `fuzzy_search_balanced` from app.py (lines 59-67), applied as in the app to
the `Descrizione` column: keep a row iff the partial similarity between the
normalized query and the cached normalized description reaches the threshold
(the comparison is `>=`). -/
def fuzzy_search_balanced (rows : List Record) (query : Str)
    (threshold : ℤ) : List Record :=
  if query.isEmpty then rows
  else
    rows.filter (fun r =>
      decide ((threshold : ℚ) ≤
        bestWindowScore (normalize_text (some query)) (descrizioneNorm r)))

/-- The description branch of the filtering block, app.py lines 191-197:
the Stage-1 word prefilter immediately followed by the fuzzy pass (the query
is the stripped description input). -/
def descrizione_filter (rows : List Record) (query : Str) (require_all : Bool)
    (soglia : ℤ) : List Record :=
  fuzzy_search_balanced (filter_contains_all_words rows query require_all)
    query soglia

/-- The per-evaluation filter state (session keys codice, descrizione,
ubicazione, categoria, soglia_fuzzy, match_all_words of app.py). -/
structure QueryState where
  codice : Str
  descrizione : Str
  ubicazione : Str
  categoria : Str
  soglia_fuzzy : ℤ
  match_all_words : Bool
deriving DecidableEq

/-- The category wildcard sentinel of the app ("Tutte"). -/
def tutte : Str := ("Tutte" : String).data

/-- app.py lines 187-189: the code substring filter, active when the code
query is non-empty. -/
def codice_filter (rows : List Record) (codice : Str) : List Record :=
  if codice.isEmpty then rows
  else rows.filter (fun r =>
    containsSub (normalize_text (some codice)) (codiceNorm r))

/-- app.py lines 191-197: the description branch, active when the description
query is non-empty (both stages receive the stripped description query). -/
def descrizione_branch (rows : List Record) (descrizione : Str)
    (require_all : Bool) (soglia : ℤ) : List Record :=
  if descrizione.isEmpty then rows
  else descrizione_filter rows (pyStrip descrizione) require_all soglia

/-- app.py lines 199-201: the location substring filter. -/
def ubicazione_filter (rows : List Record) (ubicazione : Str) : List Record :=
  if ubicazione.isEmpty then rows
  else rows.filter (fun r =>
    containsSub (normalize_text (some ubicazione)) (ubicazioneNorm r))

/-- app.py lines 203-205: the category equality filter, active when the
selection is not the "Tutte" sentinel. -/
def categoria_filter (rows : List Record) (categoria : Str) : List Record :=
  if categoria = tutte then rows
  else rows.filter (fun r =>
    decide (categoriaNorm r = normalize_text (some categoria)))

/-- The filtering block of app.py (lines 184-205): code substring filter, then
description two-stage filter, then location substring filter, then category
equality filter, each active only when its query field is non-empty
(category: not the "Tutte" sentinel). -/
def apply_filters (rows : List Record) (q : QueryState) : List Record :=
  categoria_filter
    (ubicazione_filter
      (descrizione_branch (codice_filter rows q.codice) q.descrizione
        q.match_all_words q.soglia_fuzzy)
      q.ubicazione)
    q.categoria

/-- The pagination block of app.py (lines 207-231): clamp the page index to
`[1, max_pages]`, apply the prev/next buttons, slice the filtered rows.
Returns the effective page index and the displayed page. -/
def pageState (filtro : List Record) (page_size : Nat) (page_idx : Nat)
    (prev next_ : Bool) : Nat × List Record :=
  let total := filtro.length
  let max_pages := max 1 ((total + page_size - 1) / page_size)
  let i1 := max 1 (min page_idx max_pages)
  let i2 := if prev ∧ 1 < i1 then i1 - 1 else i1
  let i3 := if next_ ∧ i2 < max_pages then i2 + 1 else i2
  let start := (i3 - 1) * page_size
  (i3, (filtro.drop start).take page_size)

/-- Character comparison under `re.IGNORECASE`: equal after lowercasing. -/
def charIEq (a b : Char) : Bool := decide (pyLowerChar a = pyLowerChar b)

/-- Case-insensitive match of a pattern word against the head of a text. -/
def ciPref : Str → Str → Bool
  | [], _ => true
  | _ :: _, [] => false
  | a :: as, b :: bs => charIEq a b && ciPref as bs

/-- Case-insensitive whole-string equality. -/
def ciStrEq (w m : Str) : Bool := decide (w.length = m.length) && ciPref w m

/-- The highlight words of `evidenzia_testo_multi`, app.py line 73: the raw
(non-normalized) whitespace tokens of the query. -/
def hlWords (query : Str) : List Str :=
  (pySplit query).filter (fun w => !(pyStrip w).isEmpty)

/-- The opening highlight marker inserted by the substitution. -/
def markOpen : Str := ("<mark>" : String).data

/-- The closing highlight marker inserted by the substitution. -/
def markClose : Str := ("</mark>" : String).data

/-- The regex alternation `(w1|w2|...)` at one position: Python `re` tries the
alternatives left to right and takes the first that matches; the matched text
is the equally long prefix of the haystack. -/
def firstMatch : List Str → Str → Option Str
  | [], _ => none
  | w :: rest, t =>
    if ciPref w t then some (t.take w.length) else firstMatch rest t

/-- One left-to-right pass of `re.sub` with the word alternation: at each
position either wrap the first matching alternative and continue after it, or
copy the character.  The fuel is the text length (every step consumes at least
one character since the words are non-empty). -/
def subScan (ws : List Str) : Nat → Str → Str
  | 0, t => t
  | _ + 1, [] => []
  | fuel + 1, c :: t =>
    match firstMatch ws (c :: t) with
    | some m =>
      markOpen ++ m ++ markClose ++ subScan ws fuel (t.drop (m.length - 1))
    | none => c :: subScan ws fuel t

/-- `evidenzia_testo_multi` from app.py (lines 69-77): empty or token-free
query returns the text unchanged; otherwise one `re.sub` pass wrapping matches
of the word alternation in the markers (case-insensitive). -/
def evidenzia_testo_multi (testo query : Str) : Str :=
  if query.isEmpty then testo
  else if (hlWords query).isEmpty then testo
  else subScan (hlWords query) testo.length testo

/-- The same scan as `subScan`, returning the list of segments
(marked flag, original characters) instead of the rendered string. -/
def scanSegs (ws : List Str) : Nat → Str → List (Bool × Str)
  | 0, t => if t.isEmpty then [] else [(false, t)]
  | _ + 1, [] => []
  | fuel + 1, c :: t =>
    match firstMatch ws (c :: t) with
    | some m => (true, m) :: scanSegs ws fuel (t.drop (m.length - 1))
    | none => (false, [c]) :: scanSegs ws fuel t

/-- Rendering of one segment: marked segments are wrapped once. -/
def renderSeg (p : Bool × Str) : Str :=
  if p.1 then markOpen ++ p.2 ++ markClose else p.2

/-- The original characters carried by a segment list. -/
def segsText (segs : List (Bool × Str)) : Str := (segs.map Prod.snd).flatten

/-- A segment list is a correct single left-to-right scan for the words `ws`:
each marked segment is the text matched by some word at its position, and at
each unmarked character no word matches. -/
inductive SegsOk (ws : List Str) : List (Bool × Str) → Prop
  | nil : SegsOk ws []
  | mark (m : Str) (rest : List (Bool × Str))
      (hm : ∃ w ∈ ws, ciPref w (m ++ segsText rest) = true ∧
        m = (m ++ segsText rest).take w.length)
      (hrest : SegsOk ws rest) : SegsOk ws ((true, m) :: rest)
  | skip (c : Char) (rest : List (Bool × Str))
      (hc : ∀ w ∈ ws, ciPref w (c :: segsText rest) = false)
      (hrest : SegsOk ws rest) : SegsOk ws ((false, [c]) :: rest)

/-- Parse a marked string back into (character, inside-a-marker) pairs;
marker substrings are consumed, other characters are emitted with the current
state. -/
def parseMarksF : Nat → Str → Bool → List (Char × Bool)
  | 0, _, _ => []
  | _ + 1, [], _ => []
  | fuel + 1, c :: t, inside =>
    if markOpen <+: (c :: t) then parseMarksF fuel (t.drop 5) true
    else if markClose <+: (c :: t) then parseMarksF fuel (t.drop 6) false
    else (c, inside) :: parseMarksF fuel t inside

/-- Parse a marked string (initially outside any marker). -/
def parseMarks (s : Str) : List (Char × Bool) := parseMarksF s.length s false

/-- `w` matches case-insensitively at position `i` of `t`. -/
def occursCIAt (w t : Str) (i : Nat) : Prop :=
  i + w.length ≤ t.length ∧ ciPref w (t.drop i) = true

/-- The literal reading of the highlight claim: after removing the markers the
output is the original text, and every case-insensitive occurrence of every
query word lies wholly inside marked spans. -/
def wrapsEveryOccurrence (t query : Str) : Prop :=
  (parseMarks (evidenzia_testo_multi t query)).map Prod.fst = t ∧
  ∀ w ∈ hlWords query, ∀ i < t.length, occursCIAt w t i →
    ∀ j < i + w.length, i ≤ j →
      ((parseMarks (evidenzia_testo_multi t query))[j]?).map Prod.snd = some true

instance (t query : Str) : Decidable (wrapsEveryOccurrence t query) := by
  unfold wrapsEveryOccurrence occursCIAt
  infer_instance

/-- The image of one character under lower, NFKD and dropping combining
marks. -/
def imgChar (c : Char) : Str := dropCombining (nfkdChar (pyLowerChar c))

/-- A character is stable when its image is a single already-normalized
character of the same whitespace class.  U+00A8 is not stable: its image is a
space although it is not itself whitespace. -/
def stableChar (c : Char) : Bool :=
  match imgChar c with
  | [d] =>
    decide (pyLowerChar d = d) && decide (imgChar d = [d]) &&
      (pyIsSpace d == pyIsSpace c)
  | _ => false

/-- The single character a stable character normalizes to. -/
def imgHead (c : Char) : Char := (imgChar c).headD c

/-- Stage-1 word prefilter pass predicate for one row (app.py lines 40-57). -/
def wordPass (query : Str) (require_all : Bool) (r : Record) : Prop :=
  queryWords query = [] ∨
    (if require_all then ∀ w ∈ queryWords query, w <:+: descrizioneNorm r
     else ∃ w ∈ queryWords query, w <:+: descrizioneNorm r)

/-- Stage-2 fuzzy pass predicate for one row (app.py lines 59-67). -/
def fuzzyPass (query : Str) (threshold : ℤ) (r : Record) : Prop :=
  query = [] ∨ (threshold : ℚ) ≤
    bestWindowScore (normalize_text (some query)) (descrizioneNorm r)

/-- Code criterion: inactive (empty) or substring of the normalized code. -/
def codicePass (codice : Str) (r : Record) : Prop :=
  codice = [] ∨ containsSub (normalize_text (some codice)) (codiceNorm r) = true

/-- Description criterion: inactive or both matcher stages pass. -/
def descrizionePass (descrizione : Str) (require_all : Bool) (soglia : ℤ)
    (r : Record) : Prop :=
  descrizione = [] ∨
    (wordPass (pyStrip descrizione) require_all r ∧
      fuzzyPass (pyStrip descrizione) soglia r)

/-- Location criterion: inactive or substring of the normalized location. -/
def ubicazionePass (ubicazione : Str) (r : Record) : Prop :=
  ubicazione = [] ∨
    containsSub (normalize_text (some ubicazione)) (ubicazioneNorm r) = true

/-- Category criterion: the "Tutte" wildcard or exact normalized equality. -/
def categoriaPass (categoria : Str) (r : Record) : Prop :=
  categoria = tutte ∨ categoriaNorm r = normalize_text (some categoria)

/-- Description query of the Stage-2-skip counterexample. -/
def exQ1 : Str := ("ab cd" : String).data

/-- Row 1 of the counterexample dataset. -/
def rw1 : Record := ⟨some (("R1" : String).data), some (("ab cd" : String).data), some [], some []⟩

/-- Row 2 of the counterexample dataset. -/
def rw2 : Record := ⟨some (("R2" : String).data), some (("ab cd" : String).data), some [], some []⟩

/-- Row 3 of the counterexample dataset. -/
def rw3 : Record := ⟨some (("R3" : String).data), some (("ab cd" : String).data), some [], some []⟩

/-- Row 4 of the counterexample dataset. -/
def rw4 : Record := ⟨some (("R4" : String).data), some (("ab cd" : String).data), some [], some []⟩

/-- Row 5 of the counterexample dataset: passes the word prefilter for
"ab cd" but its best partial similarity is 400/7 < 70. -/
def rw5 : Record := ⟨some (("R5" : String).data), some (("cdzzzzab" : String).data), some [], some []⟩

/-- Five rows surviving Stage 1 for the query "ab cd". -/
def exRows5 : List Record := [rw1, rw2, rw3, rw4, rw5]

/-- A row whose description is exactly "ab" (partial similarity 100). -/
def recW : Record := ⟨some [], some (("ab" : String).data), some [], some []⟩

/-- The record of the all-words test vector. -/
def recC4 : Record :=
  ⟨some [], some (("cuscinetto a sfera 608" : String).data), some [], some []⟩

/-- Record A of the orchestration test vector. -/
def recA : Record :=
  ⟨some (("C100" : String).data), some [], some [], some (("Motori" : String).data)⟩

/-- Record B of the orchestration test vector. -/
def recB : Record :=
  ⟨some (("C200" : String).data), some [], some [], some (("Filtri" : String).data)⟩

/-- The two-record orchestration dataset. -/
def exDataset : List Record := [recA, recB]

/-- The all-blank/wildcard query. -/
def blankQuery : QueryState := ⟨[], [], [], tutte, 70, true⟩

/-- Query with code "C1" and the category wildcard. -/
def queryCode : QueryState := ⟨("C1" : String).data, [], [], tutte, 70, true⟩

/-- Query with blank code and category "Filtri". -/
def queryCat : QueryState := ⟨[], [], [], ("Filtri" : String).data, 70, true⟩

theorem containsSub_iff {n h : Str} : containsSub n h = true ↔ n <:+: h := by
  induction h with
  | nil => simp [containsSub, List.isEmpty_iff, List.infix_nil]
  | cons c t ih => simp [containsSub, ih, List.infix_cons_iff]

theorem le_foldl_max {t init : ℚ} {l : List ℚ} :
    t ≤ l.foldl max init ↔ t ≤ init ∨ ∃ q ∈ l, t ≤ q := by
  induction l generalizing init with
  | nil => simp
  | cons a l ih =>
    rw [List.foldl_cons, ih, le_max_iff]
    constructor
    · rintro ((h | h) | ⟨q, hq, h⟩)
      · exact Or.inl h
      · exact Or.inr ⟨a, by simp, h⟩
      · exact Or.inr ⟨q, by simp [hq], h⟩
    · rintro (h | ⟨q, hq, h⟩)
      · exact Or.inl (Or.inl h)
      · rcases List.mem_cons.mp hq with rfl | hq
        · exact Or.inl (Or.inr h)
        · exact Or.inr ⟨q, hq, h⟩

theorem foldl_max_lt {t init : ℚ} {l : List ℚ} :
    l.foldl max init < t ↔ init < t ∧ ∀ q ∈ l, q < t := by
  induction l generalizing init with
  | nil => simp
  | cons a l ih =>
    rw [List.foldl_cons, ih, max_lt_iff]
    constructor
    · rintro ⟨⟨h1, h2⟩, h3⟩
      refine ⟨h1, ?_⟩
      intro q hq
      rcases List.mem_cons.mp hq with rfl | hq
      · exact h2
      · exact h3 q hq
    · rintro ⟨h1, h2⟩
      exact ⟨⟨h1, h2 a (by simp)⟩, fun q hq => h2 q (by simp [hq])⟩

theorem fuzzScore_lt70 {a w : Str} (ha : a.length = 5) (hl : lcs a w ≤ 2)
    (h1 : 1 ≤ w.length) : fuzzScore a w < 70 := by
  rw [fuzzScore, if_neg (by omega), ha]
  have hk : (lcs a w : ℚ) ≤ 2 := by exact_mod_cast hl
  have hw : (1 : ℚ) ≤ (w.length : ℚ) := by exact_mod_cast h1
  rw [div_lt_iff₀ (by push_cast; linarith)]
  push_cast
  linarith

theorem fuzzScore_le100 {a w : Str} (h2 : 2 * lcs a w ≤ a.length + w.length) :
    fuzzScore a w ≤ 100 := by
  rw [fuzzScore]
  by_cases h0 : a.length + w.length = 0
  · rw [if_pos h0]
  · rw [if_neg h0]
    have hk : (2 * lcs a w : ℚ) ≤ (a.length : ℚ) + (w.length : ℚ) := by
      exact_mod_cast h2
    have hpos : (0 : ℚ) < (a.length : ℚ) + (w.length : ℚ) := by
      have : 0 < a.length + w.length := by omega
      exact_mod_cast this
    rw [div_le_iff₀ hpos]
    push_cast at hk ⊢
    linarith

theorem mem_filter_contains_all_words {rows : List Record} {query : Str}
    {b : Bool} {r : Record} :
    r ∈ filter_contains_all_words rows query b ↔ r ∈ rows ∧ wordPass query b r := by
  unfold filter_contains_all_words wordPass
  by_cases hq : query.isEmpty
  · have hq' : query = [] := List.isEmpty_iff.mp hq
    subst hq'
    simp [queryWords, pySplit, pySplitAux]
  · by_cases hw : (queryWords query).isEmpty
    · have hw' : (queryWords query) = [] := List.isEmpty_iff.mp hw
      simp [hq, hw, hw']
    · have hw' : (queryWords query) ≠ [] := by
        simpa [List.isEmpty_iff] using hw
      cases b
      · simp [hq, hw, hw', List.mem_filter, List.any_eq_true, containsSub_iff]
      · simp [hq, hw, hw', List.mem_filter, List.all_eq_true, containsSub_iff]

theorem mem_fuzzy_search_balanced {rows : List Record} {query : Str} {t : ℤ}
    {r : Record} :
    r ∈ fuzzy_search_balanced rows query t ↔ r ∈ rows ∧ fuzzyPass query t r := by
  unfold fuzzy_search_balanced fuzzyPass
  by_cases hq : query.isEmpty
  · have hq' : query = [] := List.isEmpty_iff.mp hq
    subst hq'
    simp
  · have hq' : query ≠ [] := by simpa [List.isEmpty_iff] using hq
    simp [hq, hq', List.mem_filter]

theorem mem_codice_filter {rows : List Record} {c : Str} {r : Record} :
    r ∈ codice_filter rows c ↔ r ∈ rows ∧ codicePass c r := by
  unfold codice_filter codicePass
  by_cases h : c.isEmpty
  · simp [h, List.isEmpty_iff.mp h]
  · have h' : c ≠ [] := by simpa [List.isEmpty_iff] using h
    simp [h, h', List.mem_filter]

theorem mem_ubicazione_filter {rows : List Record} {u : Str} {r : Record} :
    r ∈ ubicazione_filter rows u ↔ r ∈ rows ∧ ubicazionePass u r := by
  unfold ubicazione_filter ubicazionePass
  by_cases h : u.isEmpty
  · simp [h, List.isEmpty_iff.mp h]
  · have h' : u ≠ [] := by simpa [List.isEmpty_iff] using h
    simp [h, h', List.mem_filter]

theorem mem_categoria_filter {rows : List Record} {cat : Str} {r : Record} :
    r ∈ categoria_filter rows cat ↔ r ∈ rows ∧ categoriaPass cat r := by
  unfold categoria_filter categoriaPass
  by_cases h : cat = tutte
  · simp [h]
  · simp [h, List.mem_filter]

theorem mem_descrizione_branch {rows : List Record} {d : Str} {mA : Bool}
    {t : ℤ} {r : Record} :
    r ∈ descrizione_branch rows d mA t ↔ r ∈ rows ∧ descrizionePass d mA t r := by
  unfold descrizione_branch descrizionePass descrizione_filter
  by_cases h : d.isEmpty
  · simp [h, List.isEmpty_iff.mp h]
  · have h' : d ≠ [] := by simpa [List.isEmpty_iff] using h
    rw [if_neg h]
    rw [mem_fuzzy_search_balanced, mem_filter_contains_all_words]
    simp [h']
    tauto

theorem filter_contains_all_words_sublist (rows : List Record) (query : Str)
    (b : Bool) : (filter_contains_all_words rows query b).Sublist rows := by
  unfold filter_contains_all_words
  split
  · exact List.Sublist.refl _
  · split
    · exact List.Sublist.refl _
    · split
      · exact List.filter_sublist _
      · exact List.filter_sublist _

theorem fuzzy_search_balanced_sublist (rows : List Record) (query : Str)
    (t : ℤ) : (fuzzy_search_balanced rows query t).Sublist rows := by
  unfold fuzzy_search_balanced
  split
  · exact List.Sublist.refl _
  · exact List.filter_sublist _

theorem codice_filter_sublist (rows : List Record) (c : Str) :
    (codice_filter rows c).Sublist rows := by
  unfold codice_filter
  split
  · exact List.Sublist.refl _
  · exact List.filter_sublist _

theorem ubicazione_filter_sublist (rows : List Record) (u : Str) :
    (ubicazione_filter rows u).Sublist rows := by
  unfold ubicazione_filter
  split
  · exact List.Sublist.refl _
  · exact List.filter_sublist _

theorem categoria_filter_sublist (rows : List Record) (cat : Str) :
    (categoria_filter rows cat).Sublist rows := by
  unfold categoria_filter
  split
  · exact List.Sublist.refl _
  · exact List.filter_sublist _

theorem descrizione_branch_sublist (rows : List Record) (d : Str) (mA : Bool)
    (t : ℤ) : (descrizione_branch rows d mA t).Sublist rows := by
  unfold descrizione_branch descrizione_filter
  split
  · exact List.Sublist.refl _
  · exact ((fuzzy_search_balanced_sublist _ _ _).trans
      (filter_contains_all_words_sublist _ _ _))

theorem foldl_max_le {t init : ℚ} {l : List ℚ} :
    l.foldl max init ≤ t ↔ init ≤ t ∧ ∀ q ∈ l, q ≤ t := by
  induction l generalizing init with
  | nil => simp
  | cons a l ih =>
    rw [List.foldl_cons, ih, max_le_iff]
    constructor
    · rintro ⟨⟨h1, h2⟩, h3⟩
      refine ⟨h1, ?_⟩
      intro q hq
      rcases List.mem_cons.mp hq with rfl | hq
      · exact h2
      · exact h3 q hq
    · rintro ⟨h1, h2⟩
      exact ⟨⟨h1, h2 a (by simp)⟩, fun q hq => h2 q (by simp [hq])⟩

/-- C2.  The code evaluated at the failing input: a row whose source cell is
absent (NaN) gets the cached normalized value "nan", not the empty string,
because `astype(str)` renders NaN as "nan" before `_normalize_text` runs
(whose own `pd.isna` branch does return the empty string for an absent
value). -/
theorem claim2_theorem :
    normColumn none = ("nan" : String).data ∧ normColumn none ≠ [] ∧
    normalize_text none = [] :=
  ⟨by decide, by decide, rfl⟩

/-- C7.  The orchestrated MatchResult is an ordered subsequence of the dataset
in the original row order: every filter stage only removes rows, never
reorders them, for every dataset and query. -/
theorem claim7_theorem (rows : List Record) (q : QueryState) :
    (apply_filters rows q).Sublist rows :=
  (((categoria_filter_sublist _ _).trans (ubicazione_filter_sublist _ _)).trans
    (descrizione_branch_sublist _ _ _ _)).trans (codice_filter_sublist _ _)

/-- C9 counterexample.  With an empty result set the code clamps the page
index to 1, but the claimed interval [1, ceil(total/page_size)] is [1, 0] and
does not contain it: the claim fails at total = 0, page_size = 10. -/
theorem claim9_counterexample :
    (pageState [] 10 1 false false).1 = 1 ∧
    ¬ (pageState [] 10 1 false false).1 ≤
        (List.length ([] : List Record) + 10 - 1) / 10 := by
  constructor
  · rfl
  · decide

/-- C9 (amended).  For page_size ≥ 1 the effective page index lies in
[1, max 1 (ceil(total/page_size))] (the code forces at least one page even
when the result set is empty), and the displayed page is the corresponding
fixed-size slice, of at most page_size rows. -/
theorem claim9_theorem (filtro : List Record) (page_size page_idx : Nat)
    (prev next_ : Bool) (hps : 1 ≤ page_size) :
    1 ≤ (pageState filtro page_size page_idx prev next_).1 ∧
    (pageState filtro page_size page_idx prev next_).1 ≤
      max 1 ((filtro.length + page_size - 1) / page_size) ∧
    (pageState filtro page_size page_idx prev next_).2 =
      (filtro.drop
        (((pageState filtro page_size page_idx prev next_).1 - 1) * page_size)).take
        page_size ∧
    (pageState filtro page_size page_idx prev next_).2.length ≤ page_size := by
  have hps' : 0 < page_size := hps
  unfold pageState
  dsimp only
  refine ⟨?_, ?_, rfl, ?_⟩
  · split
    · split <;> omega
    · split <;> omega
  · split
    · split <;> omega
    · split <;> omega
  · simp [List.length_take]

/-- C9 witness: the amended claim applied at the one-row result set with
page_size 10 and requested page 7. -/
theorem claim9_witness :
    (1 : Nat) ≤ 10 ∧
    (1 ≤ (pageState [recA] 10 7 false false).1 ∧
      (pageState [recA] 10 7 false false).1 ≤
        max 1 ((List.length [recA] + 10 - 1) / 10) ∧
      (pageState [recA] 10 7 false false).2 =
        (List.take 10 (List.drop (((pageState [recA] 10 7 false false).1 - 1) * 10) [recA])) ∧
      (pageState [recA] 10 7 false false).2.length ≤ 10) :=
  ⟨by decide, claim9_theorem [recA] 10 7 false false (by decide)⟩

/-- C5.  The similarity threshold is inclusive: for a non-empty description
query, a row is kept by the fuzzy pass iff it was a candidate and its partial
similarity score is ≥ the threshold. -/
theorem claim5_theorem (rows : List Record) (r : Record) (q : Str) (t : ℤ)
    (hq : q ≠ []) :
    r ∈ fuzzy_search_balanced rows q t ↔
      r ∈ rows ∧ (t : ℚ) ≤
        bestWindowScore (normalize_text (some q)) (descrizioneNorm r) := by
  rw [mem_fuzzy_search_balanced]
  unfold fuzzyPass
  simp [hq]

/-- C5 witness: a candidate whose score is exactly the threshold (score 100,
threshold 100) is kept. -/
theorem claim5_witness :
    ("ab" : String).data ≠ [] ∧
    bestWindowScore (normalize_text (some (("ab" : String).data)))
      (descrizioneNorm recW) = 100 ∧
    recW ∈ fuzzy_search_balanced [recW] (("ab" : String).data) 100 := by
  have ha : normalize_text (some (("ab" : String).data)) = ("ab" : String).data := by
    decide
  have hd : descrizioneNorm recW = ("ab" : String).data := by decide
  have h100 : bestWindowScore (normalize_text (some (("ab" : String).data)))
      (descrizioneNorm recW) = 100 := by
    rw [ha, hd, bestWindowScore, if_pos (le_refl _), bwsAux, if_neg (by decide)]
    apply le_antisymm
    · rw [foldl_max_le]
      refine ⟨by norm_num, ?_⟩
      intro q hq'
      rw [List.mem_map] at hq'
      obtain ⟨w, hw, rfl⟩ := hq'
      have hall : ∀ w ∈ prWindows ((("ab" : String).data).length) (("ab" : String).data),
          2 * lcs (("ab" : String).data) w ≤ (("ab" : String).data).length + w.length := by
        decide
      exact fuzzScore_le100 (hall w hw)
    · rw [le_foldl_max]
      right
      refine ⟨fuzzScore (("ab" : String).data) (("ab" : String).data), ?_, ?_⟩
      · exact List.mem_map_of_mem _ (by decide)
      · rw [fuzzScore, if_neg (by decide),
          show lcs (("ab" : String).data) (("ab" : String).data) = 2 from by decide,
          show (("ab" : String).data).length = 2 from by decide]
        norm_num
  refine ⟨by decide, h100, ?_⟩
  exact (claim5_theorem [recW] recW (("ab" : String).data) 100 (by decide)).mpr
    ⟨by decide, by rw [h100]; norm_num⟩

/-- C4.  Stage-1 word prefilter semantics: with a non-empty token list, in
all-words mode a row passes iff every token is a substring of its normalized
description, in any-word mode iff at least one is; and the concrete vectors:
description "cuscinetto a sfera 608" matches "sfera 608" in all-words mode,
does not match "sfera 999" in all-words mode, and matches it in any-word
mode. -/
theorem claim4_theorem :
    (∀ (rows : List Record) (r : Record) (q : Str), queryWords q ≠ [] →
      ((r ∈ filter_contains_all_words rows q true ↔
          r ∈ rows ∧ ∀ w ∈ queryWords q, w <:+: descrizioneNorm r) ∧
        (r ∈ filter_contains_all_words rows q false ↔
          r ∈ rows ∧ ∃ w ∈ queryWords q, w <:+: descrizioneNorm r))) ∧
    recC4 ∈ filter_contains_all_words [recC4] (("sfera 608" : String).data) true ∧
    recC4 ∉ filter_contains_all_words [recC4] (("sfera 999" : String).data) true ∧
    recC4 ∈ filter_contains_all_words [recC4] (("sfera 999" : String).data) false := by
  refine ⟨?_, by decide, by decide, by decide⟩
  intro rows r q hq
  constructor
  · rw [mem_filter_contains_all_words]
    unfold wordPass
    simp [hq]
  · rw [mem_filter_contains_all_words]
    unfold wordPass
    simp [hq]

/-- C4 witness: applied at the single-row dataset with query "sfera 608". -/
theorem claim4_witness :
    queryWords (("sfera 608" : String).data) ≠ [] ∧
    ((recC4 ∈ filter_contains_all_words [recC4] (("sfera 608" : String).data) true ↔
        recC4 ∈ [recC4] ∧
          ∀ w ∈ queryWords (("sfera 608" : String).data), w <:+: descrizioneNorm recC4) ∧
      (recC4 ∈ filter_contains_all_words [recC4] (("sfera 608" : String).data) false ↔
        recC4 ∈ [recC4] ∧
          ∃ w ∈ queryWords (("sfera 608" : String).data), w <:+: descrizioneNorm recC4)) :=
  ⟨by decide, claim4_theorem.1 [recC4] recC4 (("sfera 608" : String).data) (by decide)⟩

/-- C6.  The Filter Orchestrator is a conjunction over the active criteria: a
row is in the result iff it passes every active field predicate and the
description matcher; the all-blank/wildcard query returns the dataset
unchanged; and on the dataset {A: code "C100" category "Motori"; B: code
"C200" category "Filtri"}, the query {code "C1", category wildcard} yields
[A] and the query {code "", category "Filtri"} yields [B]. -/
theorem claim6_theorem :
    (∀ (rows : List Record) (q : QueryState) (r : Record),
      r ∈ apply_filters rows q ↔
        r ∈ rows ∧ codicePass q.codice r ∧
          descrizionePass q.descrizione q.match_all_words q.soglia_fuzzy r ∧
          ubicazionePass q.ubicazione r ∧ categoriaPass q.categoria r) ∧
    (∀ rows : List Record, apply_filters rows blankQuery = rows) ∧
    apply_filters exDataset queryCode = [recA] ∧
    apply_filters exDataset queryCat = [recB] := by
  refine ⟨?_, ?_, by decide, by decide⟩
  · intro rows q r
    unfold apply_filters
    rw [mem_categoria_filter, mem_ubicazione_filter, mem_descrizione_branch,
      mem_codice_filter]
    tauto
  · intro rows
    rfl

/-- C1 counterexample.  With candidate_row_limit 2 and a Stage-1 output of 5
rows, the code still runs the fuzzy pass: the returned set differs from the
Stage-1 output (row rw5 scores 400/7 < 70 and is dropped), refuting the
claimed skip. -/
theorem claim1_counterexample :
    2 < (filter_contains_all_words exRows5 exQ1 true).length ∧
    descrizione_filter exRows5 exQ1 true 70 ≠
      filter_contains_all_words exRows5 exQ1 true := by
  constructor
  · decide
  · have hmem : rw5 ∈ filter_contains_all_words exRows5 exQ1 true := by decide
    have hlt : bestWindowScore (normalize_text (some exQ1))
        (descrizioneNorm rw5) < 70 := by
      rw [bestWindowScore, if_pos (by decide), bwsAux, if_neg (by decide)]
      rw [foldl_max_lt]
      refine ⟨by norm_num, ?_⟩
      intro q hq
      rw [List.mem_map] at hq
      obtain ⟨w, hw, rfl⟩ := hq
      have hall : ∀ w ∈ prWindows ((normalize_text (some exQ1)).length)
          (descrizioneNorm rw5),
          lcs (normalize_text (some exQ1)) w ≤ 2 ∧ 1 ≤ w.length := by decide
      exact fuzzScore_lt70 (by decide) (hall w hw).1 (hall w hw).2
    intro heq
    have h2 : rw5 ∈ descrizione_filter exRows5 exQ1 true 70 := by
      rw [heq]
      exact hmem
    have h3 := (mem_fuzzy_search_balanced.mp h2).2
    unfold fuzzyPass at h3
    rcases h3 with h3 | h3
    · exact absurd h3 (by decide)
    · exact absurd h3 (not_le.mpr hlt)

/-- C1 (amended).  The code has no candidate_row_limit: Stage 2 always runs on
the Stage-1 output, so (for a non-empty query) a row is in the Description
Matcher output iff it survives Stage 1 and its partial similarity reaches the
threshold, regardless of how many rows survived Stage 1. -/
theorem claim1_theorem (rows : List Record) (q : Str) (require_all : Bool)
    (soglia : ℤ) (r : Record) (hq : q ≠ []) :
    r ∈ descrizione_filter rows q require_all soglia ↔
      r ∈ filter_contains_all_words rows q require_all ∧
        (soglia : ℚ) ≤
          bestWindowScore (normalize_text (some q)) (descrizioneNorm r) := by
  unfold descrizione_filter
  rw [mem_fuzzy_search_balanced]
  unfold fuzzyPass
  simp [hq]

/-- C1 witness: the amended claim applied at the five-row Stage-1 output with
query "ab cd" and threshold 70. -/
theorem claim1_witness :
    exQ1 ≠ [] ∧
    (rw5 ∈ descrizione_filter exRows5 exQ1 true 70 ↔
      rw5 ∈ filter_contains_all_words exRows5 exQ1 true ∧
        (70 : ℚ) ≤
          bestWindowScore (normalize_text (some exQ1)) (descrizioneNorm rw5)) :=
  ⟨by decide, claim1_theorem exRows5 exQ1 true 70 rw5 (by decide)⟩

theorem head?_dropWhile_false {α : Type} {p : α → Bool} :
    ∀ {l : List α} {c : α}, (l.dropWhile p).head? = some c → p c = false := by
  intro l
  induction l with
  | nil => intro c h; simp [List.dropWhile] at h
  | cons a t ih =>
    intro c h
    by_cases hp : p a = true
    · rw [List.dropWhile_cons, if_pos hp] at h
      exact ih h
    · rw [List.dropWhile_cons, if_neg hp] at h
      rw [List.head?_cons, Option.some.injEq] at h
      subst h
      simpa using hp

theorem dropWhile_eq_self_of_head {α : Type} {p : α → Bool} {l : List α}
    (h : ∀ c, l.head? = some c → p c = false) : l.dropWhile p = l := by
  cases l with
  | nil => rfl
  | cons a t => rw [List.dropWhile_cons, if_neg (by simp [h a rfl])]

theorem getLast?_of_suffix {α : Type} {v u : List α} (h : v <:+ u)
    (hv : v ≠ []) : v.getLast? = u.getLast? := by
  obtain ⟨w, rfl⟩ := h
  rw [List.getLast?_append]
  cases hvl : v.getLast? with
  | none => exact absurd (List.getLast?_eq_none_iff.mp hvl) hv
  | some c => simp [hvl]

theorem pyStrip_getLast_not_space {s : Str} {c : Char}
    (hc : (pyStrip s).getLast? = some c) : pyIsSpace c = false := by
  unfold pyStrip at hc
  rw [List.getLast?_reverse] at hc
  exact head?_dropWhile_false hc

theorem pyStrip_head_not_space {s : Str} {c : Char}
    (hc : (pyStrip s).head? = some c) : pyIsSpace c = false := by
  unfold pyStrip at hc
  rw [List.head?_reverse] at hc
  have hne : (((s.dropWhile pyIsSpace).reverse).dropWhile pyIsSpace) ≠ [] := by
    intro h0
    rw [h0] at hc
    simp at hc
  rw [getLast?_of_suffix (List.dropWhile_suffix _) hne,
    List.getLast?_reverse] at hc
  exact head?_dropWhile_false hc

theorem pyStrip_eq_self {l : Str}
    (h1 : ∀ c, l.head? = some c → pyIsSpace c = false)
    (h2 : ∀ c, l.getLast? = some c → pyIsSpace c = false) :
    pyStrip l = l := by
  have h2' : ∀ c, (l.reverse).head? = some c → pyIsSpace c = false := by
    intro c hc
    rw [List.head?_reverse] at hc
    exact h2 c hc
  unfold pyStrip
  rw [dropWhile_eq_self_of_head h1, dropWhile_eq_self_of_head h2',
    List.reverse_reverse]

theorem mem_pyStrip {c : Char} {s : Str} (h : c ∈ pyStrip s) : c ∈ s := by
  unfold pyStrip at h
  rw [List.mem_reverse] at h
  have h1 := (List.dropWhile_suffix pyIsSpace).subset h
  rw [List.mem_reverse] at h1
  exact (List.dropWhile_suffix pyIsSpace).subset h1

theorem core_eq_flatMap (l : Str) :
    dropCombining (nfkdStr (pyLower l)) = l.flatMap imgChar := by
  induction l with
  | nil => rfl
  | cons c t ih =>
    show dropCombining (nfkdStr (pyLowerChar c :: pyLower t)) = _
    rw [show nfkdStr (pyLowerChar c :: pyLower t) =
        nfkdChar (pyLowerChar c) ++ nfkdStr (pyLower t) from
      List.flatMap_cons _ _ _]
    rw [show ∀ x y : Str,
        dropCombining (x ++ y) = dropCombining x ++ dropCombining y from
      fun x y => List.filter_append _ _]
    rw [ih, List.flatMap_cons]
    rfl

theorem stableChar_spec {c : Char} (h : stableChar c = true) :
    ∃ e, imgChar c = [e] ∧ pyLowerChar e = e ∧ imgChar e = [e] ∧
      pyIsSpace e = pyIsSpace c := by
  unfold stableChar at h
  rcases him : imgChar c with _ | ⟨e, rest⟩
  · rw [him] at h
    simp at h
  · rcases rest with _ | ⟨f, r2⟩
    · rw [him] at h
      simp only [Bool.and_eq_true, decide_eq_true_eq, beq_iff_eq] at h
      exact ⟨e, rfl, h.1.1, h.1.2, h.2⟩
    · rw [him] at h
      simp at h

theorem imgHead_of_stable {c : Char} (h : stableChar c = true) :
    imgChar c = [imgHead c] ∧ pyIsSpace (imgHead c) = pyIsSpace c ∧
      pyLowerChar (imgHead c) = imgHead c ∧ imgChar (imgHead c) = [imgHead c] := by
  obtain ⟨e, him, h1, h2, h3⟩ := stableChar_spec h
  unfold imgHead
  rw [him]
  exact ⟨rfl, h3, h1, h2⟩

theorem flatMap_img_eq_map {l : Str} (hs : ∀ c ∈ l, stableChar c = true) :
    l.flatMap imgChar = l.map imgHead := by
  induction l with
  | nil => rfl
  | cons c t ih =>
    rw [List.flatMap_cons, List.map_cons, (imgHead_of_stable (hs c (by simp))).1,
      ih (fun d hd => hs d (by simp [hd]))]
    rfl

theorem map_head?_space {l : Str} (hs : ∀ c ∈ l, stableChar c = true) :
    ∀ {d}, (l.map imgHead).head? = some d →
      ∃ c, l.head? = some c ∧ pyIsSpace d = pyIsSpace c := by
  cases l with
  | nil => intro d hd; simp at hd
  | cons c t =>
    intro d hd
    rw [List.map_cons, List.head?_cons, Option.some.injEq] at hd
    subst hd
    exact ⟨c, rfl, (imgHead_of_stable (hs c (by simp))).2.1⟩

theorem map_getLast?_space {l : Str} (hs : ∀ c ∈ l, stableChar c = true) :
    ∀ {d}, (l.map imgHead).getLast? = some d →
      ∃ c, l.getLast? = some c ∧ pyIsSpace d = pyIsSpace c := by
  intro d hd
  rw [List.getLast?_map] at hd
  cases hl : l.getLast? with
  | none =>
    rw [hl] at hd
    simp at hd
  | some c =>
    rw [hl] at hd
    simp only [Option.map_some', Option.some.injEq] at hd
    subst hd
    have hc : c ∈ l := List.mem_of_mem_getLast? hl
    exact ⟨c, rfl, (imgHead_of_stable (hs c hc)).2.1⟩

theorem flatMap_imgChar_eq_self {l : Str} (h : ∀ c ∈ l, imgChar c = [c]) :
    l.flatMap imgChar = l := by
  induction l with
  | nil => rfl
  | cons c t ih =>
    rw [List.flatMap_cons, h c (by simp), ih (fun d hd => h d (by simp [hd]))]
    rfl

/-- C3 counterexample.  The normalizer is not idempotent: for U+00A8 ¨ (whose
NFKD decomposition is space + combining diaeresis) one application gives " "
and a second application strips that space to "". -/
theorem claim3_counterexample :
    normalize_text (some (normalize_text (some (("¨" : String).data)))) ≠
      normalize_text (some (("¨" : String).data)) := by
  decide

/-- C3 (amended).  The normalizer is idempotent on every string whose
characters are stable (lowering + NFKD + dropping combining marks yields a
single already-normalized character of the same whitespace class) — in
particular on all ASCII and accented Latin text; it is not idempotent in
general (see the U+00A8 counterexample). -/
theorem claim3_theorem (s : Str) (h : ∀ c ∈ s, stableChar c = true) :
    normalize_text (some (normalize_text (some s))) = normalize_text (some s) := by
  have hz : ∀ c ∈ pyStrip s, stableChar c = true :=
    fun c hc => h c (mem_pyStrip hc)
  have hy : normalize_text (some s) = (pyStrip s).map imgHead := by
    show dropCombining (nfkdStr (pyLower (pyStrip s))) = _
    rw [core_eq_flatMap, flatMap_img_eq_map hz]
  have hmem : ∀ d ∈ (pyStrip s).map imgHead,
      pyLowerChar d = d ∧ imgChar d = [d] := by
    intro d hd
    rw [List.mem_map] at hd
    obtain ⟨c, hc, rfl⟩ := hd
    have hi := imgHead_of_stable (hz c hc)
    exact ⟨hi.2.2.1, hi.2.2.2⟩
  have hstrip : pyStrip ((pyStrip s).map imgHead) = (pyStrip s).map imgHead := by
    apply pyStrip_eq_self
    · intro c hc
      obtain ⟨c0, hc0, hsp⟩ := map_head?_space hz hc
      rw [hsp]
      exact pyStrip_head_not_space hc0
    · intro c hc
      obtain ⟨c0, hc0, hsp⟩ := map_getLast?_space hz hc
      rw [hsp]
      exact pyStrip_getLast_not_space hc0
  rw [hy]
  show dropCombining (nfkdStr (pyLower (pyStrip ((pyStrip s).map imgHead)))) = _
  rw [hstrip, core_eq_flatMap,
    flatMap_imgChar_eq_self (fun d hd => (hmem d hd).2)]

/-- C3 witness: the amended claim applied at "  Pèrno 22", all of whose
characters are stable. -/
theorem claim3_witness :
    (∀ c ∈ ("  Pèrno 22" : String).data, stableChar c = true) ∧
    normalize_text (some (normalize_text (some (("  Pèrno 22" : String).data)))) =
      normalize_text (some (("  Pèrno 22" : String).data)) :=
  ⟨by decide, claim3_theorem (("  Pèrno 22" : String).data) (by decide)⟩

theorem segsText_cons (p : Bool × Str) (rest : List (Bool × Str)) :
    segsText (p :: rest) = p.2 ++ segsText rest := by
  unfold segsText
  rw [List.map_cons, List.flatten_cons]

theorem hlWords_ne_nil {q : Str} : ∀ w ∈ hlWords q, w ≠ [] := by
  intro w hw
  unfold hlWords at hw
  rw [List.mem_filter] at hw
  intro h0
  subst h0
  simp [pyStrip] at hw

theorem ciPref_length {w t : Str} (h : ciPref w t = true) :
    w.length ≤ t.length := by
  induction w generalizing t with
  | nil => simp
  | cons a as ih =>
    cases t with
    | nil => simp [ciPref] at h
    | cons b bs =>
      simp only [ciPref, Bool.and_eq_true] at h
      have := ih h.2
      simp only [List.length_cons]
      omega

theorem ciPref_take {w t : Str} (h : ciPref w t = true) :
    ciPref w (t.take w.length) = true := by
  induction w generalizing t with
  | nil => simp [ciPref]
  | cons a as ih =>
    cases t with
    | nil => simp [ciPref] at h
    | cons b bs =>
      simp only [ciPref, Bool.and_eq_true] at h
      rw [List.length_cons, List.take_succ_cons]
      simp only [ciPref, Bool.and_eq_true]
      exact ⟨h.1, ih h.2⟩

theorem firstMatch_some {ws : List Str} {t m : Str}
    (h : firstMatch ws t = some m) :
    ∃ w ∈ ws, ciPref w t = true ∧ m = t.take w.length := by
  induction ws with
  | nil => simp [firstMatch] at h
  | cons w rest ih =>
    rw [firstMatch] at h
    by_cases hw : ciPref w t = true
    · rw [if_pos hw, Option.some.injEq] at h
      exact ⟨w, by simp, hw, h.symm⟩
    · rw [if_neg hw] at h
      obtain ⟨w', hw', h1, h2⟩ := ih h
      exact ⟨w', by simp [hw'], h1, h2⟩

theorem firstMatch_none {ws : List Str} {t : Str} (h : firstMatch ws t = none) :
    ∀ w ∈ ws, ciPref w t = false := by
  induction ws with
  | nil => simp
  | cons w rest ih =>
    rw [firstMatch] at h
    by_cases hw : ciPref w t = true
    · rw [if_pos hw] at h
      simp at h
    · rw [if_neg hw] at h
      intro w' hw'
      rcases List.mem_cons.mp hw' with rfl | hw'
      · simpa using hw
      · exact ih h w' hw'

theorem subScan_eq_render (ws : List Str) :
    ∀ (n : Nat) (t : Str),
      subScan ws n t = ((scanSegs ws n t).map renderSeg).flatten := by
  intro n
  induction n with
  | zero =>
    intro t
    cases t with
    | nil => rfl
    | cons c t' => simp [subScan, scanSegs, renderSeg]
  | succ n ih =>
    intro t
    cases t with
    | nil => rfl
    | cons c t' =>
      rw [subScan, scanSegs]
      cases hfm : firstMatch ws (c :: t') with
      | some m => simp [hfm, renderSeg, ih]
      | none => simp [hfm, renderSeg, ih]

theorem scanSegs_text {ws : List Str} (hws : ∀ w ∈ ws, w ≠ []) :
    ∀ (n : Nat) (t : Str), t.length ≤ n → segsText (scanSegs ws n t) = t := by
  intro n
  induction n with
  | zero =>
    intro t ht
    have ht0 : t = [] := by
      cases t with
      | nil => rfl
      | cons c t' => simp at ht
    subst ht0
    rfl
  | succ n ih =>
    intro t ht
    cases t with
    | nil => rfl
    | cons c t' =>
      have ht' : t'.length ≤ n := by
        simp only [List.length_cons] at ht
        omega
      rw [scanSegs]
      cases hfm : firstMatch ws (c :: t') with
      | none =>
        simp only [hfm]
        rw [segsText_cons, ih t' ht']
        rfl
      | some m =>
        simp only [hfm]
        obtain ⟨w, hw, hci, hm⟩ := firstMatch_some hfm
        have hlen : w.length ≤ t'.length + 1 := by
          have := ciPref_length hci
          simpa using this
        obtain ⟨k, hk⟩ : ∃ k, w.length = k + 1 := by
          cases hww : w with
          | nil => exact absurd hww (hws w hw)
          | cons x xs => exact ⟨xs.length, by simp⟩
        have hm' : m = c :: t'.take k := by
          rw [hm, hk, List.take_succ_cons]
        have hmlen : m.length = k + 1 := by
          rw [hm']
          simp only [List.length_cons, List.length_take]
          omega
        rw [segsText_cons]
        have hdlen : (t'.drop (m.length - 1)).length ≤ n := by
          rw [List.length_drop]
          omega
        rw [ih _ hdlen]
        show m ++ t'.drop (m.length - 1) = c :: t'
        rw [hmlen, Nat.add_sub_cancel, hm']
        show c :: (t'.take k ++ t'.drop k) = c :: t'
        rw [List.take_append_drop]

theorem scanSegs_ok {ws : List Str} (hws : ∀ w ∈ ws, w ≠ []) :
    ∀ (n : Nat) (t : Str), t.length ≤ n → SegsOk ws (scanSegs ws n t) := by
  intro n
  induction n with
  | zero =>
    intro t ht
    have ht0 : t = [] := by
      cases t with
      | nil => rfl
      | cons c t' => simp at ht
    subst ht0
    exact SegsOk.nil
  | succ n ih =>
    intro t ht
    cases t with
    | nil => exact SegsOk.nil
    | cons c t' =>
      have ht' : t'.length ≤ n := by
        simp only [List.length_cons] at ht
        omega
      rw [scanSegs]
      cases hfm : firstMatch ws (c :: t') with
      | none =>
        simp only [hfm]
        refine SegsOk.skip c _ ?_ (ih t' ht')
        intro w hw
        rw [scanSegs_text hws n t' ht']
        exact firstMatch_none hfm w hw
      | some m =>
        simp only [hfm]
        obtain ⟨w, hw, hci, hm⟩ := firstMatch_some hfm
        have hlen : w.length ≤ t'.length + 1 := by
          have := ciPref_length hci
          simpa using this
        obtain ⟨k, hk⟩ : ∃ k, w.length = k + 1 := by
          cases hww : w with
          | nil => exact absurd hww (hws w hw)
          | cons x xs => exact ⟨xs.length, by simp⟩
        have hm' : m = c :: t'.take k := by
          rw [hm, hk, List.take_succ_cons]
        have hmlen : m.length = k + 1 := by
          rw [hm']
          simp only [List.length_cons, List.length_take]
          omega
        have hdlen : (t'.drop (m.length - 1)).length ≤ n := by
          rw [List.length_drop]
          omega
        have htext : segsText (scanSegs ws n (t'.drop (m.length - 1))) =
            t'.drop (m.length - 1) := scanSegs_text hws n _ hdlen
        have hrestore : m ++ t'.drop (m.length - 1) = c :: t' := by
          rw [hmlen, Nat.add_sub_cancel, hm']
          show c :: (t'.take k ++ t'.drop k) = c :: t'
          rw [List.take_append_drop]
        refine SegsOk.mark m _ ?_ (ih _ hdlen)
        refine ⟨w, hw, ?_, ?_⟩
        · rw [htext, hrestore]
          exact hci
        · rw [htext, hrestore]
          exact hm

theorem scanSegs_marked {ws : List Str} (hws : ∀ w ∈ ws, w ≠ []) :
    ∀ (n : Nat) (t : Str) (p : Bool × Str), p ∈ scanSegs ws n t →
      p.1 = true → p.2 ≠ [] ∧ ∃ w ∈ ws, ciStrEq w p.2 = true := by
  intro n
  induction n with
  | zero =>
    intro t p hp h1
    cases t with
    | nil => simp [scanSegs] at hp
    | cons c t' =>
      rw [scanSegs, if_neg (by simp), List.mem_singleton] at hp
      subst hp
      simp at h1
  | succ n ih =>
    intro t p hp h1
    cases t with
    | nil => simp [scanSegs] at hp
    | cons c t' =>
      rw [scanSegs] at hp
      cases hfm : firstMatch ws (c :: t') with
      | none =>
        rw [hfm] at hp
        simp only [List.mem_cons] at hp
        rcases hp with rfl | hp
        · simp at h1
        · exact ih t' p hp h1
      | some m =>
        rw [hfm] at hp
        simp only [List.mem_cons] at hp
        rcases hp with rfl | hp
        · obtain ⟨w, hw, hci, hm⟩ := firstMatch_some hfm
          have hlen : w.length ≤ t'.length + 1 := by
            have := ciPref_length hci
            simpa using this
          have hmlen : m.length = w.length := by
            rw [hm]
            simp only [List.length_take, List.length_cons]
            omega
          constructor
          · intro h0
            have h0' : m = [] := h0
            rw [h0'] at hmlen
            have := hws w hw
            cases w with
            | nil => exact this rfl
            | cons x xs => simp at hmlen
          · refine ⟨w, hw, ?_⟩
            show ciStrEq w m = true
            unfold ciStrEq
            rw [Bool.and_eq_true, decide_eq_true_eq]
            refine ⟨hmlen.symm, ?_⟩
            rw [hm]
            exact ciPref_take hci
        · exact ih _ p hp h1

/-- C10.  The highlighter performs one left-to-right pass, so the output is a
concatenation of disjoint segments of the original text, each wrapped by at
most one marker pair (never nested or double-wrapped), and every marked
segment is a case-insensitive match of some query word — for every text and
query, including overlapping words or words that contain one another. -/
theorem claim10_theorem (t query : Str) :
    ∃ segs : List (Bool × Str),
      evidenzia_testo_multi t query = ((segs.map renderSeg).flatten) ∧
      segsText segs = t ∧
      ∀ p ∈ segs, p.1 = true →
        p.2 ≠ [] ∧ ∃ w ∈ hlWords query, ciStrEq w p.2 = true := by
  unfold evidenzia_testo_multi
  by_cases hq : query.isEmpty
  · rw [if_pos hq]
    exact ⟨[(false, t)], by simp [renderSeg], by simp [segsText], by simp⟩
  · rw [if_neg hq]
    by_cases hw : (hlWords query).isEmpty
    · rw [if_pos hw]
      exact ⟨[(false, t)], by simp [renderSeg], by simp [segsText], by simp⟩
    · rw [if_neg hw]
      refine ⟨scanSegs (hlWords query) t.length t, subScan_eq_render _ _ _,
        scanSegs_text hlWords_ne_nil _ _ le_rfl, ?_⟩
      intro p hp h1
      exact scanSegs_marked hlWords_ne_nil _ _ p hp h1

/-- C8 counterexample.  The claim "every case-insensitive occurrence of each
query word is wrapped" fails: in highlight("aaa", "aa") the occurrence of
"aa" at position 1 is not wrapped (the single pass consumed positions 0-1 and
leaves position 2 unmarked). -/
theorem claim8_counterexample :
    ¬ wrapsEveryOccurrence (("aaa" : String).data) (("aa" : String).data) := by
  decide

/-- C8 (amended).  An empty query returns the text unchanged;
highlight("Cuscinetto a sfera", "sfera") wraps exactly "sfera"; and in
general the highlighter wraps, in one left-to-right pass, every occurrence
whose start is not inside an already wrapped match (at each unconsumed
position a word match starts a wrapped segment, and at each unmarked
character no word matches), leaving all other characters unchanged. -/
theorem claim8_theorem :
    (∀ t : Str, evidenzia_testo_multi t [] = t) ∧
    evidenzia_testo_multi (("Cuscinetto a sfera" : String).data)
        (("sfera" : String).data) =
      ("Cuscinetto a <mark>sfera</mark>" : String).data ∧
    evidenzia_testo_multi (("text" : String).data) [] = ("text" : String).data ∧
    ∀ t query : Str, hlWords query ≠ [] →
      ∃ segs : List (Bool × Str),
        evidenzia_testo_multi t query = ((segs.map renderSeg).flatten) ∧
        segsText segs = t ∧ SegsOk (hlWords query) segs := by
  refine ⟨fun t => rfl, by decide, rfl, ?_⟩
  intro t query hw
  have hq : ¬ query.isEmpty = true := by
    intro h0
    rw [List.isEmpty_iff.mp h0] at hw
    exact hw rfl
  unfold evidenzia_testo_multi
  rw [if_neg hq, if_neg (by simpa [List.isEmpty_iff] using hw)]
  exact ⟨scanSegs (hlWords query) t.length t, subScan_eq_render _ _ _,
    scanSegs_text hlWords_ne_nil _ _ le_rfl,
    scanSegs_ok hlWords_ne_nil _ _ le_rfl⟩

/-- C8 witness: the general single-pass characterization applied at
highlight("ab", "a"). -/
theorem claim8_witness :
    hlWords (("a" : String).data) ≠ [] ∧
    ∃ segs : List (Bool × Str),
      evidenzia_testo_multi (("ab" : String).data) (("a" : String).data) =
        ((segs.map renderSeg).flatten) ∧
      segsText segs = ("ab" : String).data ∧
      SegsOk (hlWords (("a" : String).data)) segs :=
  ⟨by decide, claim8_theorem.2.2.2 (("ab" : String).data) (("a" : String).data)
    (by decide)⟩

end Prova
